import Mathlib

/-!
Verification of the orchestrator-server task-graph core (src/src/index.ts).

The server keeps a single JavaScript object `tasks` mapping task id to task
record.  String keys of such an object enumerate in insertion order (task
ids are treated as the non-integer-like strings the system uses; JavaScript
would enumerate integer-like keys first), so the map is embedded as the
list of its task records in key-insertion order (`Store`).  `Object.values(tasks)` is then the list itself, `tasks[id]` is
the first record with that id, assigning a fresh key appends at the end, and
mutating a record in place replaces it at its position.

Fallible tool handlers are embedded as functions into `Except Err`; throwing
before any mutation corresponds to returning `.error` with no new store, so
the caller keeps the old snapshot unchanged.  The distinct error messages of
the source are mapped to the distinct constructors of `Err` named after the
spec's error taxonomy (section 7).

File writes can fail; `writeOk : Bool` abstracts whether the underlying
`writeFileSync` in `saveTasks` succeeds.  The source wraps the write in
try/catch and only logs the error, which `saveTasks` mirrors by returning the
in-memory store unchanged in both cases.
-/

namespace Orchestrator

/-- The `status` field of a task record: 'pending' | 'in_progress' | 'completed'. -/
inductive Status where
  | pending
  | in_progress
  | completed
deriving DecidableEq

/-- The `Task` interface of src/src/index.ts (lines 21-28).  Optional fields
are `Option`s; an absent `dependencies` field is `none`. -/
structure Task where
  id : String
  description : String
  status : Status
  assignedTo : Option String := none
  result : Option String := none
  dependencies : Option (List String) := none
deriving DecidableEq

/-- The in-memory `tasks` object, as its records in key-insertion order. -/
abbrev Store := List Task

/-- The error taxonomy (spec section 7); the source throws `McpError`s whose
messages distinguish exactly these cases. -/
inductive Err where
  | DuplicateId
  | DependencyNotFound
  | TaskNotFound
  | NotOwner
  | InvalidState
  | CycleDetected
  | HasDependents
  | UnknownOperation
  | StorageCorrupt
  | StorageUnavailable
deriving DecidableEq

/-- `tasks[id]`: the record stored under key `id` (first record with that id). -/
def getTask (s : Store) (id : String) : Option Task :=
  s.find? (fun t => t.id == id)

/-- The raw snapshot write: `writeFileSync(TASKS_FILE, ...)`.  `writeOk`
abstracts whether the write succeeds; a failed write is a
`StorageUnavailable` error. -/
def writeSnapshot (writeOk : Bool) (_s : Store) : Except Err Unit :=
  if writeOk then .ok () else .error .StorageUnavailable

/-- `saveTasks` (src/src/index.ts lines 49-62): the write is wrapped in
try/catch; on error it only logs (`console.error`) and returns normally, so
the in-memory store is kept unchanged either way and no error escapes. -/
def saveTasks (writeOk : Bool) (s : Store) : Store :=
  match writeSnapshot writeOk s with
  | .ok _ => s
  | .error _ => s

/-- `tasks[depId]?.status === 'completed'` (lines 139 and 194): a dangling
dependency id simply yields `undefined`, never an exception, and compares
unequal to 'completed'. -/
def depCompleted (s : Store) (d : String) : Bool :=
  match getTask s d with
  | some t => t.status == Status.completed
  | none => false

/-- The predicate of the `find` in `get_next_task` (lines 136-140): pending,
and every dependency maps to a completed task; an absent dependency list
means no requirement. -/
def isAvailable (s : Store) (t : Task) : Bool :=
  match t.status, t.dependencies with
  | Status.pending, none => true
  | Status.pending, some ds => ds.all (depCompleted s)
  | _, _ => false

/-- `create_task` (lines 90-129): reject a present id (`DuplicateId`), then
reject any missing dependency id (`DependencyNotFound`), else insert the new
pending record and save. -/
def create_task (writeOk : Bool) (s : Store) (id description : String)
    (dependencies : Option (List String)) : Except Err (Task × Store) :=
  if (getTask s id).isSome then
    .error .DuplicateId
  else if (dependencies.getD []).all (fun d => (getTask s d).isSome) then
    let t : Task := { id := id, description := description, status := Status.pending,
                      dependencies := dependencies }
    .ok (t, saveTasks writeOk (s ++ [t]))
  else
    .error .DependencyNotFound

/-- Result of `get_next_task`: either the `{ status: 'no_tasks' }` sentinel
or the assigned task record. -/
inductive NextResult where
  | noTasks
  | assigned (t : Task)
deriving DecidableEq

/-- In-place mutation of the first record satisfying `p`, as done on the
object returned by `find` / looked up by key. -/
def updateFirst (p : Task → Bool) (f : Task → Task) : Store → Store
  | [] => []
  | t :: ts => if p t then f t :: ts else t :: updateFirst p f ts

/-- The two field writes of lines 152-153. -/
def markAssigned (instance_id : String) (t : Task) : Task :=
  { t with status := Status.in_progress, assignedTo := some instance_id }

/-- `get_next_task` (lines 131-164): find the first available task in
insertion order; if none, return the no-tasks sentinel, else mark it
in-progress for the instance, save, and return it. -/
def get_next_task (writeOk : Bool) (s : Store) (instance_id : String) :
    NextResult × Store :=
  match s.find? (isAvailable s) with
  | none => (.noTasks, s)
  | some t =>
      (.assigned (markAssigned instance_id t),
       saveTasks writeOk (updateFirst (isAvailable s) (markAssigned instance_id) s))

/-- The two field writes of lines 184-185. -/
def markCompleted (result : String) (t : Task) : Task :=
  { t with status := Status.completed, result := some result }

/-- The filter predicate of `unlockedTasks` (lines 191-195):
`t.status === 'pending' && t.dependencies?.includes(task_id) &&
t.dependencies.every(depId => tasks[depId]?.status === 'completed')`;
a record without a dependency list is excluded by the optional chaining. -/
def isUnlocked (s : Store) (task_id : String) (t : Task) : Bool :=
  t.status == Status.pending &&
    match t.dependencies with
    | some ds => ds.contains task_id && ds.all (depCompleted s)
    | none => false

/-- `complete_task` (lines 166-206): reject a missing task (`TaskNotFound`)
or an `assignedTo` different from the caller (`NotOwner`); otherwise set
status and result, save, and collect the unlocked tasks over the mutated
snapshot.  NOTE: the source performs no check of the current status. -/
def complete_task (writeOk : Bool) (s : Store) (task_id instance_id result : String) :
    Except Err (Task × List Task × Store) :=
  match getTask s task_id with
  | none => .error .TaskNotFound
  | some task =>
    if task.assignedTo == some instance_id then
      let s2 := saveTasks writeOk (updateFirst (fun t => t.id == task_id) (markCompleted result) s)
      .ok (markCompleted result task, s2.filter (isUnlocked s2 task_id), s2)
    else
      .error .NotOwner

/-- `get_task_status` (lines 208-216): `Object.values(tasks)`. -/
def get_task_status (s : Store) : List Task := s

/-- The dependency ids of the record stored under `id`; `[]` for an absent
record or an absent list. -/
def depsOf (s : Store) (id : String) : List String :=
  match getTask s id with
  | some t => t.dependencies.getD []
  | none => []

/-- The dependency edge relation of a snapshot: `a` depends directly on `b`. -/
def DepEdge (s : Store) (a b : String) : Prop :=
  b ∈ depsOf s a

/-- All dependency ids mentioned anywhere in the snapshot. -/
def allDeps (s : Store) : List String :=
  (s.map (fun t => t.dependencies.getD [])).flatten

/-- One expansion step of a reachability frontier: keep the ids and add every
dependency of each of them. -/
def expand (s : Store) (xs : List String) : List String :=
  xs ++ (xs.map (depsOf s)).flatten

/-- Saturate `expand` for at most `n` rounds, stopping once nothing new is
added. -/
def sat (s : Store) : Nat → List String → List String
  | 0, xs => xs
  | n + 1, xs =>
      if (expand s xs).all (fun a => decide (a ∈ xs)) then xs
      else sat s n (expand s xs)

/-- Modelled from the spec: `hasCycle(candidateId, proposedDeps, snapshot)`
(section 4.2); the production source omits the cycle check together with
`update_task`.  Decides whether `candidateId` is reachable from
`proposedDeps` by following the snapshot's existing `dependencies` edges
(which covers the direct self-dependency `candidateId ∈ proposedDeps`).
The spec's DFS additionally reports a pre-existing cycle among the
traversed nodes even when `candidateId` is not reachable; that clause only
defends termination on already-malformed snapshots and accepts no
additional inputs on snapshots satisfying the acyclicity invariant. -/
def hasCycle (candidateId : String) (proposedDeps : List String) (s : Store) : Bool :=
  decide (candidateId ∈ sat s (proposedDeps ++ allDeps s).length proposedDeps)

/-- Replace the record stored under `task_id` (an in-place update of the
record found by key). -/
def replaceTask (s : Store) (task_id : String) (t' : Task) : Store :=
  updateFirst (fun u => u.id == task_id) (fun _ => t') s

/-- Modelled from the spec: `update_task(task_id, description?, dependencies?)`
(sections 4.3 and 6); absent from the production source, which answers it
with the unknown-tool error.  Preconditions in the spec's order: the task
exists (`TaskNotFound`), its status is `pending` (`InvalidState`); a new
dependency list is re-validated for existence (`DependencyNotFound`) and
acyclicity (`CycleDetected`); on success the record is replaced and the
store saved. -/
def update_task (writeOk : Bool) (s : Store) (task_id : String)
    (newDescription : Option String) (newDependencies : Option (List String)) :
    Except Err (Task × Store) :=
  match getTask s task_id with
  | none => .error .TaskNotFound
  | some t =>
    if t.status != Status.pending then .error .InvalidState
    else
      match newDependencies with
      | none =>
          let t' : Task := { t with description := newDescription.getD t.description }
          .ok (t', saveTasks writeOk (replaceTask s task_id t'))
      | some ds =>
          if ds.all (fun d => (getTask s d).isSome) then
            if hasCycle task_id ds s then .error .CycleDetected
            else
              let t' : Task :=
                { t with
                  description := newDescription.getD t.description
                  dependencies := some ds }
              .ok (t', saveTasks writeOk (replaceTask s task_id t'))
          else .error .DependencyNotFound

/-- Modelled from the spec: `delete_task(task_id)` (sections 4.3 and 6);
absent from the production source, which answers it with the unknown-tool
error.  Preconditions: the task exists (`TaskNotFound`) and no other task's
dependency set references it (`HasDependents`, checked regardless of the
referencing task's status); on success the record is removed and the store
saved. -/
def delete_task (writeOk : Bool) (s : Store) (task_id : String) :
    Except Err (String × Store) :=
  match getTask s task_id with
  | none => .error .TaskNotFound
  | some _ =>
    if s.any (fun t => t.id != task_id && (t.dependencies.getD []).contains task_id) then
      .error .HasDependents
    else
      .ok (task_id, saveTasks writeOk (s.filter (fun t => t.id != task_id)))

/-- The spec's reading of availability: status `pending` and every
dependency resolves to a stored `completed` task. -/
def Available (s : Store) (t : Task) : Prop :=
  t.status = Status.pending ∧
    ∀ d ∈ t.dependencies.getD [], ∃ u, getTask s d = some u ∧ u.status = Status.completed

/-- The stores reachable from the empty store by the mutating operations the
production source implements (queries leave the store untouched). -/
inductive Reaches : Store → Prop where
  | empty : Reaches []
  | create {writeOk : Bool} {s : Store} {id d : String} {deps : Option (List String)}
      {t : Task} {s' : Store} :
      Reaches s → create_task writeOk s id d deps = .ok (t, s') → Reaches s'
  | getNext {writeOk : Bool} {s : Store} {i : String} {r : NextResult} {s' : Store} :
      Reaches s → get_next_task writeOk s i = (r, s') → Reaches s'
  | complete {writeOk : Bool} {s : Store} {tid i res : String} {t : Task}
      {ul : List Task} {s' : Store} :
      Reaches s → complete_task writeOk s tid i res = .ok (t, ul, s') → Reaches s'

/-- First occurrence position of an id among the stored records
(`s.length` when absent). -/
def pos (s : Store) (x : String) : Nat :=
  s.findIdx (fun t => t.id == x)

/-- The invariant behind acyclicity: every dependency of a record points at
an id that already occurs strictly before that record's (first) position. -/
def OrderedDeps (s : Store) : Prop :=
  ∀ a t, getTask s a = some t →
    ∀ d ∈ t.dependencies.getD [], d ∈ (s.take (pos s a)).map Task.id

/-- A frontier is closed when it already contains every dependency of each
of its members. -/
def Closed (s : Store) (xs : List String) : Prop :=
  ∀ a ∈ xs, ∀ b ∈ depsOf s a, b ∈ xs

/-- Sample records used by the concrete instantiations below. -/
def taskA : Task := { id := "A", description := "a", status := Status.pending }

def taskB : Task :=
  { id := "B", description := "b", status := Status.pending, dependencies := some ["A"] }

def doneA : Task :=
  { id := "A", description := "a", status := Status.completed,
    assignedTo := some "w1", result := some "old" }

def busyA : Task :=
  { id := "A", description := "a", status := Status.in_progress, assignedTo := some "w1" }

def ghostB : Task :=
  { id := "B", description := "b", status := Status.pending, dependencies := some ["ghost"] }

/-! ## Helper lemmas -/

/-- The save attempt never alters the in-memory store, whether or not the
write succeeds. -/
lemma saveTasks_eq (writeOk : Bool) (s : Store) : saveTasks writeOk s = s := by
  cases writeOk <;> rfl

lemma getTask_eq_none_iff {s : Store} {x : String} :
    getTask s x = none ↔ ∀ u ∈ s, u.id ≠ x := by
  simp [getTask]

lemma getTask_some_mem {s : Store} {x : String} {t : Task}
    (h : getTask s x = some t) : t ∈ s ∧ t.id = x :=
  ⟨List.mem_of_find?_eq_some h, by simpa using List.find?_some h⟩

lemma getTask_append_left {s l : Store} {x : String} {t : Task}
    (h : getTask s x = some t) : getTask (s ++ l) x = some t := by
  induction s with
  | nil => simp [getTask] at h
  | cons u us ih =>
      by_cases hu : u.id = x
      · simp [getTask, List.find?_cons, hu] at h ⊢
        exact h
      · simp only [getTask, List.cons_append, List.find?_cons] at h ⊢
        have hbe : (u.id == x) = false := by simpa using hu
        rw [hbe] at h ⊢
        exact ih h

lemma getTask_append_right {s : Store} {x : String} (h : getTask s x = none)
    (t : Task) : getTask (s ++ [t]) x = if t.id = x then some t else none := by
  induction s with
  | nil =>
      by_cases hx : t.id = x <;> simp [getTask, List.find?_cons, hx]
  | cons u us ih =>
      simp only [getTask, List.find?_cons] at h ⊢
      cases hu : (u.id == x) with
      | true => rw [hu] at h; exact absurd h (by simp)
      | false =>
          rw [hu] at h
          simpa only [List.cons_append, List.find?_cons, hu] using ih h

/-- Decomposition of a successful `find?`: the list splits at the first
element satisfying the predicate. -/
lemma find?_decomp {p : Task → Bool} {s : Store} {t : Task}
    (h : s.find? p = some t) :
    ∃ l1 l2, s = l1 ++ t :: l2 ∧ (∀ u ∈ l1, p u = false) ∧ p t = true := by
  induction s with
  | nil => simp at h
  | cons u us ih =>
      rw [List.find?_cons] at h
      cases hu : p u with
      | true =>
          rw [hu] at h
          obtain rfl := Option.some.inj h
          exact ⟨[], us, by simp, by simp, hu⟩
      | false =>
          rw [hu] at h
          obtain ⟨l1, l2, hs, hl1, hp⟩ := ih h
          exact ⟨u :: l1, l2, by simp [hs], by
            intro v hv
            rcases List.mem_cons.mp hv with rfl | hv
            · exact hu
            · exact hl1 v hv, hp⟩

/-- `updateFirst` rewrites exactly the first element satisfying the
predicate. -/
lemma updateFirst_append {p : Task → Bool} {f : Task → Task} {l1 l2 : Store} {t : Task}
    (hl1 : ∀ u ∈ l1, p u = false) (hp : p t = true) :
    updateFirst p f (l1 ++ t :: l2) = l1 ++ f t :: l2 := by
  induction l1 with
  | nil => simp [updateFirst, hp]
  | cons u us ih =>
      have hu : p u = false := hl1 u (by simp)
      simp only [List.cons_append, updateFirst, hu]
      simp only [Bool.false_eq_true, if_false, List.cons.injEq, true_and]
      exact ih fun v hv => hl1 v (List.mem_cons_of_mem _ hv)

/-- A record's dependency id is completed in the snapshot exactly when it
resolves to a stored task with status `completed`. -/
lemma depCompleted_iff {s : Store} {d : String} :
    depCompleted s d = true ↔ ∃ u, getTask s d = some u ∧ u.status = Status.completed := by
  unfold depCompleted
  cases h : getTask s d with
  | none => simp
  | some u => simp

/-- The `find` predicate of `get_next_task` agrees with the spec's
availability. -/
lemma isAvailable_iff {s : Store} {t : Task} :
    isAvailable s t = true ↔ Available s t := by
  unfold isAvailable Available
  cases ht : t.status <;> cases hd : t.dependencies <;>
    simp [hd, List.all_eq_true, depCompleted_iff]

/-- The `unlockedTasks` filter predicate, read at the Prop level. -/
lemma isUnlocked_iff {s : Store} {tid : String} {t : Task} :
    isUnlocked s tid t = true ↔
      t.status = Status.pending ∧ tid ∈ t.dependencies.getD [] ∧
        ∀ d ∈ t.dependencies.getD [], ∃ u, getTask s d = some u ∧ u.status = Status.completed := by
  unfold isUnlocked
  cases hd : t.dependencies <;>
    simp [hd, List.all_eq_true, depCompleted_iff, List.contains_iff_exists_mem_beq,
      and_assoc]

/-- In-place updates that keep each record's id keep the id sequence. -/
lemma updateFirst_map_id {p : Task → Bool} {f : Task → Task}
    (hf : ∀ u, (f u).id = u.id) (s : Store) :
    (updateFirst p f s).map Task.id = s.map Task.id := by
  induction s with
  | nil => rfl
  | cons u us ih =>
      by_cases hp : p u = true
      · simp [updateFirst, hp, hf u]
      · simp only [Bool.not_eq_true] at hp
        simp [updateFirst, hp, ih]

/-- An id absent from the store stays absent across an id-preserving
in-place update. -/
lemma getTask_updateFirst_none {p : Task → Bool} {f : Task → Task} {x : String}
    (hf : ∀ u, (f u).id = u.id) {s : Store} (h : getTask s x = none) :
    getTask (updateFirst p f s) x = none := by
  rw [getTask_eq_none_iff] at h ⊢
  intro u hu
  have hmem : u.id ∈ (updateFirst p f s).map Task.id := List.mem_map_of_mem _ hu
  rw [updateFirst_map_id hf] at hmem
  obtain ⟨v, hv, hvid⟩ := List.mem_map.mp hmem
  rw [← hvid]
  exact h v hv

/-- A lookup after an id-preserving in-place update resolves to the old
record or to its image. -/
lemma getTask_updateFirst_some {p : Task → Bool} {f : Task → Task} {x : String} {t' : Task}
    (hf : ∀ u, (f u).id = u.id) {s : Store}
    (h : getTask (updateFirst p f s) x = some t') :
    ∃ t, getTask s x = some t ∧ (t' = t ∨ t' = f t) := by
  induction s with
  | nil => simp [updateFirst, getTask] at h
  | cons u us ih =>
      by_cases hp : p u = true
      · simp only [updateFirst, hp, if_true] at h
        by_cases hx : u.id = x
        · rw [getTask, List.find?_cons_of_pos _ (by simpa [hf u] using hx)] at h
          obtain rfl := Option.some.inj h
          exact ⟨u, by rw [getTask, List.find?_cons_of_pos _ (by simpa using hx)], Or.inr rfl⟩
        · rw [getTask, List.find?_cons_of_neg _ (by simpa [hf u] using hx)] at h
          exact ⟨t', by rw [getTask, List.find?_cons_of_neg _ (by simpa using hx)]; exact h,
            Or.inl rfl⟩
      · simp only [Bool.not_eq_true] at hp
        simp only [updateFirst, hp, Bool.false_eq_true, if_false] at h
        by_cases hx : u.id = x
        · rw [getTask, List.find?_cons_of_pos _ (by simpa using hx)] at h
          obtain rfl := Option.some.inj h
          exact ⟨u, by rw [getTask, List.find?_cons_of_pos _ (by simpa using hx)], Or.inl rfl⟩
        · rw [getTask, List.find?_cons_of_neg _ (by simpa using hx)] at h
          obtain ⟨t, ht, hor⟩ := ih h
          exact ⟨t, by rw [getTask, List.find?_cons_of_neg _ (by simpa using hx)]; exact ht, hor⟩

/-- `find?` stops at the first satisfying element. -/
lemma find?_first {p : Task → Bool} {l1 l2 : Store} {t : Task}
    (hl1 : ∀ u ∈ l1, p u = false) (hp : p t = true) :
    List.find? p (l1 ++ t :: l2) = some t := by
  induction l1 with
  | nil => exact List.find?_cons_of_pos _ hp
  | cons u us ih =>
      rw [List.cons_append, List.find?_cons_of_neg _ (by simp [hl1 u (by simp)])]
      exact ih fun v hv => hl1 v (List.mem_cons_of_mem _ hv)

/-- Looking up the updated id after an in-place update of the record with
that id yields the image record. -/
lemma getTask_updateFirst_eq {f : Task → Task} {tid : String} {t : Task} {s : Store}
    (h : getTask s tid = some t) (hf : (f t).id = t.id) :
    getTask (updateFirst (fun u => u.id == tid) f s) tid = some (f t) := by
  obtain ⟨l1, l2, rfl, hl1, hp⟩ := find?_decomp h
  rw [updateFirst_append hl1 hp]
  exact find?_first hl1 (by rw [hf]; exact hp)

/-- `get_task_details` (lines 218-233). -/
def get_task_details (s : Store) (task_id : String) : Except Err Task :=
  match getTask s task_id with
  | some t => .ok t
  | none => .error .TaskNotFound


/-- A successful completion, written out: the looked-up record is marked
completed in place, the snapshot is saved (a no-op in memory), and the
unlocked list is the filter over the mutated snapshot. -/
lemma complete_task_ok_of (writeOk : Bool) (s : Store) (tid i r : String) (t : Task)
    (hg : getTask s tid = some t) (ha : t.assignedTo = some i) :
    complete_task writeOk s tid i r =
      .ok (markCompleted r t,
           (updateFirst (fun u => u.id == tid) (markCompleted r) s).filter
             (isUnlocked (updateFirst (fun u => u.id == tid) (markCompleted r) s) tid),
           updateFirst (fun u => u.id == tid) (markCompleted r) s) := by
  simp [complete_task, hg, ha, saveTasks_eq]

/-- Inversion of a successful completion. -/
lemma complete_task_ok_inv {writeOk : Bool} {s : Store} {tid i r : String}
    {ct : Task} {ul : List Task} {s2 : Store}
    (h : complete_task writeOk s tid i r = .ok (ct, ul, s2)) :
    ∃ t, getTask s tid = some t ∧ t.assignedTo = some i ∧ ct = markCompleted r t ∧
      s2 = updateFirst (fun u => u.id == tid) (markCompleted r) s ∧
      ul = s2.filter (isUnlocked s2 tid) := by
  cases hg : getTask s tid with
  | none => simp [complete_task, hg] at h
  | some t =>
      by_cases ha : t.assignedTo = some i
      · rw [complete_task_ok_of writeOk s tid i r t hg ha] at h
        simp only [Except.ok.injEq, Prod.mk.injEq] at h
        obtain ⟨h1, h2, h3⟩ := h
        subst h3
        exact ⟨t, rfl, ha, h1.symm, rfl, h2.symm⟩
      · simp [complete_task, hg, ha] at h

/-- C1 counterexample: a task already `completed` (still carrying its
assignee) is completed again with plain success, and its stored result is
overwritten — refuting the claimed `status == in_progress` precondition and
the terminality of `completed`. -/
theorem completed_task_recompleted :
    complete_task true [doneA] "A" "w1" "new" =
      .ok ({ doneA with result := some "new" }, [],
           [{ doneA with result := some "new" }]) := by
  rfl

/-- C1 (amended): `complete_task(task_id, instance_id, result)` succeeds iff
the task exists and its `assignedTo` equals the requesting instance; the
status is never consulted, so an already-completed task still assigned to
the instance is completed again and its result overwritten. -/
theorem complete_task_ok_iff (writeOk : Bool) (s : Store) (tid i r : String) :
    ((∃ out, complete_task writeOk s tid i r = .ok out) ↔
      ∃ t, getTask s tid = some t ∧ t.assignedTo = some i) ∧
    (∀ t, getTask s tid = some t → t.assignedTo = some i →
      ∃ ul s2, complete_task writeOk s tid i r = .ok (markCompleted r t, ul, s2) ∧
        (markCompleted r t).result = some r) := by
  constructor
  · constructor
    · rintro ⟨out, hout⟩
      cases hg : getTask s tid with
      | none => simp [complete_task, hg] at hout
      | some t =>
          by_cases ha : t.assignedTo = some i
          · exact ⟨t, rfl, ha⟩
          · simp [complete_task, hg, ha] at hout
    · rintro ⟨t, hg, ha⟩
      exact ⟨_, complete_task_ok_of writeOk s tid i r t hg ha⟩
  · intro t hg ha
    exact ⟨_, _, complete_task_ok_of writeOk s tid i r t hg ha, rfl⟩

/-- C1 witness: on a store holding completed `A` assigned to `w1`, the
success condition of `complete_task_ok_iff` is met and the call succeeds. -/
theorem complete_task_ok_iff_witness :
    (∃ t, getTask [doneA] "A" = some t ∧ t.assignedTo = some "w1") ∧
    (∃ out, complete_task true [doneA] "A" "w1" "new" = .ok out) :=
  ⟨⟨doneA, rfl, rfl⟩,
   (complete_task_ok_iff true [doneA] "A" "w1" "new").1.mpr ⟨doneA, rfl, rfl⟩⟩

/-- C4 counterexample: with the snapshot write failing, the raw write
reports `StorageUnavailable`, yet `create_task` still reports plain success
and the new task is in the in-memory snapshot. -/
theorem save_failure_reports_success :
    writeSnapshot false ([] : Store) = .error .StorageUnavailable ∧
    create_task false [] "A" "a" none =
      .ok ({ id := "A", description := "a", status := Status.pending },
           [{ id := "A", description := "a", status := Status.pending }]) :=
  ⟨rfl, rfl⟩

/-- C4 (amended): a failed snapshot write is caught and logged inside
`saveTasks`; it never alters the in-memory store, and every mutating
operation returns exactly what it returns when the write succeeds — the
failure is not surfaced to the caller, and the in-memory snapshot keeps the
applied mutation. -/
theorem save_failure_swallowed (writeOk : Bool) (s : Store) :
    saveTasks writeOk s = s ∧
    (∀ id d deps, create_task writeOk s id d deps = create_task true s id d deps) ∧
    (∀ i, get_next_task writeOk s i = get_next_task true s i) ∧
    (∀ tid i r, complete_task writeOk s tid i r = complete_task true s tid i r) := by
  refine ⟨saveTasks_eq writeOk s, ?_, ?_, ?_⟩ <;> intros <;>
    simp only [create_task, get_next_task, complete_task, saveTasks_eq]

/-- C5: on every successful completion of `tid`, the returned unlocked list
holds exactly the tasks of the post-completion snapshot that are pending,
list `tid` among their dependencies, and have every dependency resolve to a
completed task in that snapshot. -/
theorem complete_task_unlocked_exact (writeOk : Bool) (s : Store) (tid i r : String)
    (ct : Task) (ul : List Task) (s2 : Store)
    (h : complete_task writeOk s tid i r = .ok (ct, ul, s2)) (t : Task) :
    t ∈ ul ↔ t ∈ s2 ∧ t.status = Status.pending ∧ tid ∈ t.dependencies.getD [] ∧
      ∀ d ∈ t.dependencies.getD [],
        ∃ u, getTask s2 d = some u ∧ u.status = Status.completed := by
  obtain ⟨t0, hg, ha, hct, hs2, hul⟩ := complete_task_ok_inv h
  rw [hul, List.mem_filter]
  simp [isUnlocked_iff, and_assoc]

/-- C5 witness: completing `A` on the two-task store unlocks exactly `B`. -/
theorem complete_task_unlocked_exact_witness :
    taskB ∈ [taskB] ↔
      taskB ∈ [markCompleted "ok" (markAssigned "w1" taskA), taskB] ∧
        taskB.status = Status.pending ∧ "A" ∈ taskB.dependencies.getD [] ∧
        ∀ d ∈ taskB.dependencies.getD [],
          ∃ u, getTask [markCompleted "ok" (markAssigned "w1" taskA), taskB] d = some u ∧
            u.status = Status.completed :=
  complete_task_unlocked_exact true [markAssigned "w1" taskA, taskB] "A" "w1" "ok"
    (markCompleted "ok" (markAssigned "w1" taskA)) [taskB]
    [markCompleted "ok" (markAssigned "w1" taskA), taskB] rfl taskB

/-- C8 counterexample: when the id being created already exists, a missing
dependency id is not reported — the duplicate-id check fires first, so the
call fails with `DuplicateId`, not `DependencyNotFound`. -/
theorem create_task_duplicate_first :
    create_task true [taskA] "A" "x" (some ["missing"]) = .error .DuplicateId := by
  rfl

/-- C8 (amended): provided the new id is not already present, `create_task`
with a dependency list containing an id absent from the store fails with
`DependencyNotFound`; the error is raised before any insertion, so the
store is unchanged. -/
theorem create_task_missing_dep (writeOk : Bool) (s : Store) (id d : String)
    (ds : List String) (hid : getTask s id = none)
    (hmiss : ∃ x ∈ ds, getTask s x = none) :
    create_task writeOk s id d (some ds) = .error .DependencyNotFound := by
  obtain ⟨x, hx, hxn⟩ := hmiss
  have hall : (ds.all fun y => (getTask s y).isSome) = false := by
    rw [Bool.eq_false_iff]
    intro hall
    rw [List.all_eq_true] at hall
    have hx2 := hall x hx
    rw [hxn] at hx2
    simp at hx2
  simp [create_task, hid, hall]

/-- C8 witness: creating `B` with the missing dependency `ghost` on a
one-task store fails with `DependencyNotFound`. -/
theorem create_task_missing_dep_witness :
    getTask [taskA] "B" = none ∧ (∃ x ∈ ["ghost"], getTask [taskA] x = none) ∧
    create_task true [taskA] "B" "b" (some ["ghost"]) = .error .DependencyNotFound :=
  ⟨rfl, ⟨"ghost", by simp, rfl⟩,
   create_task_missing_dep true [taskA] "B" "b" ["ghost"] rfl ⟨"ghost", by simp, rfl⟩⟩

/-- C9: a stored task with a dependency id that resolves to no record is
never available (so `get_next_task` never serves it), never appears in an
unlocked list, and the dangling reference never produces an error of its
own — `complete_task` can only fail with `TaskNotFound` or `NotOwner`, and
`get_next_task` is total by construction. -/
theorem dangling_dep_never_served (writeOk : Bool) (s : Store) (tid i r : String)
    (t : Task) (_ht : t ∈ s) (d : String) (hd : d ∈ t.dependencies.getD [])
    (hmiss : getTask s d = none) :
    isAvailable s t = false ∧
    (∀ ct ul s2, complete_task writeOk s tid i r = .ok (ct, ul, s2) → t ∉ ul) ∧
    (∀ e, complete_task writeOk s tid i r = .error e →
      e = Err.TaskNotFound ∨ e = Err.NotOwner) := by
  refine ⟨?_, ?_, ?_⟩
  · by_cases h : isAvailable s t = true
    · obtain ⟨-, hdeps⟩ := isAvailable_iff.mp h
      obtain ⟨u, hu, -⟩ := hdeps d hd
      rw [hmiss] at hu
      cases hu
    · simpa using h
  · intro ct ul s2 hok htul
    obtain ⟨t0, hg, ha, hct, hs2, hul⟩ := complete_task_ok_inv hok
    rw [hul, List.mem_filter] at htul
    obtain ⟨-, hunl⟩ := htul
    obtain ⟨-, -, hdeps⟩ := isUnlocked_iff.mp hunl
    obtain ⟨u, hu, -⟩ := hdeps d hd
    have hnone : getTask s2 d = none := by
      rw [hs2]
      exact getTask_updateFirst_none (f := markCompleted r) (fun v => rfl) hmiss
    rw [hnone] at hu
    cases hu
  · intro e he
    cases hg : getTask s tid with
    | none =>
        simp only [complete_task, hg, Except.error.injEq] at he
        exact Or.inl he.symm
    | some t0 =>
        by_cases ha : t0.assignedTo = some i
        · simp [complete_task, hg, ha] at he
        · simp only [complete_task, hg] at he
          rw [if_neg (by simp [ha])] at he
          exact Or.inr (Except.error.inj he).symm

/-- C9 witness: `B` depends on the unresolved id `ghost`; `B` is not
available, and completing `B` (never assigned) fails with `NotOwner`, not
with an error about the dangling reference. -/
theorem dangling_dep_never_served_witness :
    ghostB ∈ [ghostB] ∧ "ghost" ∈ ghostB.dependencies.getD [] ∧
    getTask [ghostB] "ghost" = none ∧ isAvailable [ghostB] ghostB = false :=
  ⟨by simp, by simp [ghostB], rfl,
   (dangling_dep_never_served true [ghostB] "B" "w1" "r" ghostB (by simp) "ghost"
     (by simp [ghostB]) rfl).1⟩

/-- C6: `get_next_task` serves the first available task in insertion order:
when no stored task is available it returns the no-tasks sentinel (never an
error), and when it returns a task that task is the first available one,
every dependency of it resolves to a completed task, and it is recorded
in-progress and assigned to the requesting instance. -/
theorem get_next_task_first_available (writeOk : Bool) (s : Store) (i : String) :
    ((get_next_task writeOk s i).1 = NextResult.noTasks ↔ ∀ t ∈ s, ¬ Available s t) ∧
    (∀ t', (get_next_task writeOk s i).1 = NextResult.assigned t' →
      ∃ l1 t l2, s = l1 ++ t :: l2 ∧ Available s t ∧ (∀ u ∈ l1, ¬ Available s u) ∧
        t' = markAssigned i t ∧ t'.status = Status.in_progress ∧ t'.assignedTo = some i ∧
        (∀ d ∈ t.dependencies.getD [],
          ∃ u, getTask s d = some u ∧ u.status = Status.completed) ∧
        (get_next_task writeOk s i).2 = l1 ++ markAssigned i t :: l2) := by
  cases hf : s.find? (isAvailable s) with
  | none =>
      have hgn : get_next_task writeOk s i = (NextResult.noTasks, s) := by
        simp [get_next_task, hf]
      rw [List.find?_eq_none] at hf
      constructor
      · rw [hgn]
        constructor
        · intro _ t hts hav
          exact hf t hts (isAvailable_iff.mpr hav)
        · intro _
          rfl
      · intro t' ht'
        rw [hgn] at ht'
        exact absurd ht' (by simp)
  | some t =>
      have havt : isAvailable s t = true := List.find?_some hf
      obtain ⟨l1, l2, hs, hl1, hp⟩ := find?_decomp hf
      subst hs
      have hgn : get_next_task writeOk (l1 ++ t :: l2) i =
          (NextResult.assigned (markAssigned i t), l1 ++ markAssigned i t :: l2) := by
        rw [get_next_task, hf, saveTasks_eq, updateFirst_append hl1 hp]
      constructor
      · rw [hgn]
        constructor
        · intro habs
          exact absurd habs (by simp)
        · intro hall
          exact absurd (isAvailable_iff.mp havt) (hall t (by simp))
      · intro t' ht'
        rw [hgn] at ht'
        obtain rfl := (NextResult.assigned.inj ht').symm
        refine ⟨l1, t, l2, rfl, isAvailable_iff.mp havt, ?_, rfl, rfl, rfl, ?_, by rw [hgn]⟩
        · intro u hu hav
          exact absurd (isAvailable_iff.mpr hav) (by simp [hl1 u hu])
        · exact (isAvailable_iff.mp havt).2

/-- C6 witness: on the store `[B, A]` with pending `B` depending on the
pending task `A`, the unavailable `B` is skipped and the first available
task `A` is served and assigned to `w1`. -/
theorem get_next_task_first_available_witness :
    ∃ l1 t l2, ([taskB, taskA] : Store) = l1 ++ t :: l2 ∧ Available [taskB, taskA] t ∧
      (∀ u ∈ l1, ¬ Available [taskB, taskA] u) ∧
      markAssigned "w1" taskA = markAssigned "w1" t ∧
      (markAssigned "w1" taskA).status = Status.in_progress ∧
      (markAssigned "w1" taskA).assignedTo = some "w1" ∧
      (∀ d ∈ t.dependencies.getD [],
        ∃ u, getTask [taskB, taskA] d = some u ∧ u.status = Status.completed) ∧
      (get_next_task true [taskB, taskA] "w1").2 = l1 ++ markAssigned "w1" t :: l2 :=
  (get_next_task_first_available true [taskB, taskA] "w1").2 (markAssigned "w1" taskA) rfl

/-- C10: `get_next_task` changes at most the single record it returns, and
of that record only the `status` and `assignedTo` fields; every other
record, and every other field of the chosen record, is unchanged, and with
no available task the store is unchanged. -/
theorem get_next_task_frame (writeOk : Bool) (s : Store) (i : String) :
    ((get_next_task writeOk s i).1 = NextResult.noTasks → (get_next_task writeOk s i).2 = s) ∧
    (∀ t', (get_next_task writeOk s i).1 = NextResult.assigned t' →
      ∃ l1 t l2, s = l1 ++ t :: l2 ∧ (get_next_task writeOk s i).2 = l1 ++ t' :: l2 ∧
        t'.id = t.id ∧ t'.description = t.description ∧ t'.result = t.result ∧
        t'.dependencies = t.dependencies ∧ t'.status = Status.in_progress ∧
        t'.assignedTo = some i) := by
  cases hf : s.find? (isAvailable s) with
  | none =>
      have hgn : get_next_task writeOk s i = (NextResult.noTasks, s) := by
        simp [get_next_task, hf]
      refine ⟨fun _ => by rw [hgn], fun t' ht' => ?_⟩
      rw [hgn] at ht'
      exact absurd ht' (by simp)
  | some t =>
      obtain ⟨l1, l2, hs, hl1, hp⟩ := find?_decomp hf
      subst hs
      have hgn : get_next_task writeOk (l1 ++ t :: l2) i =
          (NextResult.assigned (markAssigned i t), l1 ++ markAssigned i t :: l2) := by
        rw [get_next_task, hf, saveTasks_eq, updateFirst_append hl1 hp]
      refine ⟨fun habs => ?_, fun t' ht' => ?_⟩
      · rw [hgn] at habs
        exact absurd habs (by simp)
      · rw [hgn] at ht'
        obtain rfl := (NextResult.assigned.inj ht').symm
        exact ⟨l1, t, l2, rfl, by rw [hgn], rfl, rfl, rfl, rfl, rfl, rfl⟩

/-- C10 witness: serving the one-task store `[A]` rewrites exactly that
record, leaving its identity fields intact. -/
theorem get_next_task_frame_witness :
    ∃ l1 t l2, ([taskA] : Store) = l1 ++ t :: l2 ∧
      (get_next_task true [taskA] "w1").2 = l1 ++ markAssigned "w1" taskA :: l2 ∧
      (markAssigned "w1" taskA).id = t.id ∧
      (markAssigned "w1" taskA).description = t.description ∧
      (markAssigned "w1" taskA).result = t.result ∧
      (markAssigned "w1" taskA).dependencies = t.dependencies ∧
      (markAssigned "w1" taskA).status = Status.in_progress ∧
      (markAssigned "w1" taskA).assignedTo = some "w1" :=
  (get_next_task_frame true [taskA] "w1").2 (markAssigned "w1" taskA) rfl

/-! ## Acyclicity of reachable stores -/

lemma pos_cons_eq {u : Task} {us : Store} {x : String} (h : u.id = x) :
    pos (u :: us) x = 0 := by
  simp [pos, List.findIdx_cons, h]

lemma pos_cons_ne {u : Task} {us : Store} {x : String} (h : u.id ≠ x) :
    pos (u :: us) x = pos us x + 1 := by
  have hb : (u.id == x) = false := by simpa using h
  simp [pos, List.findIdx_cons, hb]

/-- An id occurring among the first `n` records sits at position below `n`. -/
lemma pos_lt_of_mem_take {s : Store} {n : Nat} {d : String}
    (h : d ∈ (s.take n).map Task.id) : pos s d < n := by
  induction s generalizing n with
  | nil => simp at h
  | cons u us ih =>
      cases n with
      | zero => simp at h
      | succ n =>
          rw [List.take_succ_cons, List.map_cons, List.mem_cons] at h
          rcases h with h | h
          · rw [pos_cons_eq h.symm]
            omega
          · by_cases he : u.id = d
            · rw [pos_cons_eq he]
              omega
            · rw [pos_cons_ne he]
              have := ih h
              omega

/-- Under the ordering invariant every dependency edge strictly decreases
the first-occurrence position. -/
lemma edge_pos_lt {s : Store} (hinv : OrderedDeps s) {a b : String}
    (h : DepEdge s a b) : pos s b < pos s a := by
  unfold DepEdge depsOf at h
  cases hg : getTask s a with
  | none => rw [hg] at h; simp at h
  | some t =>
      rw [hg] at h
      exact pos_lt_of_mem_take (hinv a t hg b h)

lemma transGen_pos_lt {s : Store} (hinv : OrderedDeps s) {a b : String}
    (h : Relation.TransGen (DepEdge s) a b) : pos s b < pos s a := by
  induction h with
  | single h1 => exact edge_pos_lt hinv h1
  | tail _ h1 ih => exact lt_trans (edge_pos_lt hinv h1) ih

lemma pos_lt_length_of_some {s : Store} {x : String} {t : Task}
    (h : getTask s x = some t) : pos s x < s.length := by
  induction s with
  | nil => simp [getTask] at h
  | cons u us ih =>
      by_cases hu : u.id = x
      · rw [pos_cons_eq hu]
        simp
      · rw [getTask, List.find?_cons_of_neg _ (by simpa using hu)] at h
        rw [pos_cons_ne hu, List.length_cons]
        exact Nat.succ_lt_succ (ih h)

lemma pos_append_of_some {s : Store} {x : String} {t : Task}
    (h : getTask s x = some t) (l : Store) : pos (s ++ l) x = pos s x := by
  induction s with
  | nil => simp [getTask] at h
  | cons u us ih =>
      by_cases hu : u.id = x
      · rw [List.cons_append, pos_cons_eq hu, pos_cons_eq hu]
      · rw [getTask, List.find?_cons_of_neg _ (by simpa using hu)] at h
        rw [List.cons_append, pos_cons_ne hu, pos_cons_ne hu, ih h]

lemma pos_append_of_none {s : Store} {x : String} (h : getTask s x = none) {t : Task}
    (ht : t.id = x) : pos (s ++ [t]) x = s.length := by
  rw [getTask_eq_none_iff] at h
  induction s with
  | nil => simp [pos, List.findIdx_cons, ht]
  | cons u us ih =>
      have hu : u.id ≠ x := h u (by simp)
      rw [List.cons_append, pos_cons_ne hu, List.length_cons,
        ih fun v hv => h v (List.mem_cons_of_mem _ hv)]

lemma mem_ids_of_isSome {s : Store} {d : String} (h : (getTask s d).isSome) :
    d ∈ s.map Task.id := by
  cases hg : getTask s d with
  | none => rw [hg] at h; simp at h
  | some u =>
      obtain ⟨hu, hid⟩ := getTask_some_mem hg
      exact List.mem_map.mpr ⟨u, hu, hid⟩

/-- Appending a fresh record whose dependencies already exist keeps the
ordering invariant. -/
lemma orderedDeps_append {s : Store} (hinv : OrderedDeps s) {nt : Task}
    (_hfresh : getTask s nt.id = none)
    (hdeps : ∀ d ∈ nt.dependencies.getD [], (getTask s d).isSome) :
    OrderedDeps (s ++ [nt]) := by
  intro a t hg d hd
  cases hsa : getTask s a with
  | some t0 =>
      rw [getTask_append_left hsa] at hg
      obtain rfl := Option.some.inj hg
      rw [pos_append_of_some hsa,
        List.take_append_of_le_length (le_of_lt (pos_lt_length_of_some hsa))]
      exact hinv a t0 hsa d hd
  | none =>
      rw [getTask_append_right hsa nt] at hg
      by_cases ha : nt.id = a
      · rw [if_pos ha] at hg
        obtain rfl := Option.some.inj hg
        rw [← ha] at hsa ⊢
        rw [pos_append_of_none hsa rfl,
          List.take_append_of_le_length (Nat.le_refl _), List.take_length]
        exact mem_ids_of_isSome (hdeps d hd)
      · rw [if_neg ha] at hg
        cases hg

lemma pos_updateFirst {p : Task → Bool} {f : Task → Task}
    (hf : ∀ u, (f u).id = u.id) (s : Store) (x : String) :
    pos (updateFirst p f s) x = pos s x := by
  induction s with
  | nil => rfl
  | cons u us ih =>
      by_cases hp : p u = true
      · simp only [updateFirst, hp, if_true]
        by_cases hu : u.id = x
        · rw [pos_cons_eq (by rw [hf u]; exact hu), pos_cons_eq hu]
        · rw [pos_cons_ne (by rw [hf u]; exact hu), pos_cons_ne hu]
      · simp only [Bool.not_eq_true] at hp
        simp only [updateFirst, hp, Bool.false_eq_true, if_false]
        by_cases hu : u.id = x
        · rw [pos_cons_eq hu, pos_cons_eq hu]
        · rw [pos_cons_ne hu, pos_cons_ne hu, ih]

lemma take_map_id_updateFirst {p : Task → Bool} {f : Task → Task}
    (hf : ∀ u, (f u).id = u.id) (s : Store) (n : Nat) :
    ((updateFirst p f s).take n).map Task.id = (s.take n).map Task.id := by
  rw [List.map_take, List.map_take, updateFirst_map_id hf]

/-- In-place updates that keep ids and dependency lists keep the ordering
invariant. -/
lemma orderedDeps_updateFirst {p : Task → Bool} {f : Task → Task}
    (hf : ∀ u, (f u).id = u.id) (hfd : ∀ u, (f u).dependencies = u.dependencies)
    {s : Store} (hinv : OrderedDeps s) : OrderedDeps (updateFirst p f s) := by
  intro a t' hg d hd
  obtain ⟨t, hgt, hor⟩ := getTask_updateFirst_some hf hg
  have hdeps : t'.dependencies = t.dependencies := by
    rcases hor with rfl | rfl
    · rfl
    · exact hfd t
  rw [hdeps] at hd
  rw [pos_updateFirst hf, take_map_id_updateFirst hf]
  exact hinv a t hgt d hd

/-- Inversion of a successful creation. -/
lemma create_task_ok_inv {writeOk : Bool} {s : Store} {id d : String}
    {deps : Option (List String)} {t : Task} {s' : Store}
    (h : create_task writeOk s id d deps = .ok (t, s')) :
    getTask s id = none ∧ (∀ x ∈ deps.getD [], (getTask s x).isSome) ∧
      t = { id := id, description := d, status := Status.pending, dependencies := deps } ∧
      s' = s ++ [t] := by
  cases hg : getTask s id with
  | some u => simp [create_task, hg] at h
  | none =>
      cases hall : ((deps.getD []).all fun x => (getTask s x).isSome) with
      | false => simp [create_task, hg, hall] at h
      | true =>
          simp only [create_task, hg, Option.isSome_none, Bool.false_eq_true, if_false,
            hall, if_true, saveTasks_eq, Except.ok.injEq, Prod.mk.injEq] at h
          obtain ⟨h1, h2⟩ := h
          exact ⟨rfl, List.all_eq_true.mp hall, h1.symm, by rw [← h1]; exact h2.symm⟩

/-- The store after `get_next_task` is unchanged or an id- and
dependency-preserving in-place update. -/
lemma get_next_task_store_inv {writeOk : Bool} {s : Store} {i : String}
    {r : NextResult} {s' : Store} (h : get_next_task writeOk s i = (r, s')) :
    s' = s ∨ s' = updateFirst (isAvailable s) (markAssigned i) s := by
  cases hf : s.find? (isAvailable s) with
  | none =>
      simp only [get_next_task, hf, Prod.mk.injEq] at h
      exact Or.inl h.2.symm
  | some t =>
      simp only [get_next_task, hf, saveTasks_eq, Prod.mk.injEq] at h
      exact Or.inr h.2.symm

lemma orderedDeps_nil : OrderedDeps [] := by
  intro a t hg
  simp [getTask] at hg

/-- Every store reachable by the implemented operations satisfies the
ordering invariant: dependencies always point strictly earlier in insertion
order. -/
lemma orderedDeps_of_reaches {s : Store} (h : Reaches s) : OrderedDeps s := by
  induction h with
  | empty => exact orderedDeps_nil
  | create hr hok ih =>
      obtain ⟨hid, hall, ht, hs'⟩ := create_task_ok_inv hok
      subst hs'
      subst ht
      refine orderedDeps_append ih hid ?_
      intro d hd
      exact hall d hd
  | @getNext writeOk s i r s' hr hstep ih =>
      rcases get_next_task_store_inv hstep with rfl | rfl
      · exact ih
      · exact orderedDeps_updateFirst (f := markAssigned i) (fun u => rfl) (fun u => rfl) ih
  | @complete writeOk s tid i res t ul s' hr hok ih =>
      obtain ⟨t0, hg, ha, hct, hs2, hul⟩ := complete_task_ok_inv hok
      subst hs2
      exact orderedDeps_updateFirst (f := markCompleted res) (fun u => rfl) (fun u => rfl) ih

/-- C7: after every sequence of operations starting from the empty store,
the dependency relation over the stored tasks is acyclic — no id is
transitively reachable from itself along `dependencies` edges. -/
theorem reaches_acyclic {s : Store} (h : Reaches s) (a : String) :
    ¬ Relation.TransGen (DepEdge s) a a := by
  intro hcyc
  exact lt_irrefl _ (transGen_pos_lt (orderedDeps_of_reaches h) hcyc)

/-- C7 witness: the two-step creation history `A` then `B (deps=[A])` is a
reachable store, and `B` does not transitively depend on itself. -/
theorem reaches_acyclic_witness :
    Reaches ([taskA, taskB] : Store) ∧
      ¬ Relation.TransGen (DepEdge [taskA, taskB]) "B" "B" := by
  have e1 : create_task true [] "A" "a" none = .ok (taskA, [taskA]) := by rfl
  have e2 : create_task true [taskA] "B" "b" (some ["A"]) = .ok (taskB, [taskA, taskB]) := by
    rfl
  have h2 : Reaches ([taskA, taskB] : Store) :=
    Reaches.create (Reaches.create Reaches.empty e1) e2
  exact ⟨h2, reaches_acyclic h2 "B"⟩

/-! ## Reachability saturation for the modelled cycle check -/

lemma subset_expand (s : Store) (xs : List String) : xs ⊆ expand s xs :=
  fun _ ha => List.mem_append_left _ ha

lemma deps_mem_expand {s : Store} {xs : List String} {a b : String}
    (ha : a ∈ xs) (hb : b ∈ depsOf s a) : b ∈ expand s xs :=
  List.mem_append_right _ (List.mem_flatten.mpr ⟨depsOf s a, List.mem_map_of_mem _ ha, hb⟩)

lemma subset_sat (s : Store) (n : Nat) (xs : List String) : xs ⊆ sat s n xs := by
  induction n generalizing xs with
  | zero => exact fun _ ha => ha
  | succ n ih =>
      simp only [sat]
      by_cases hc : ((expand s xs).all fun a => decide (a ∈ xs)) = true
      · rw [if_pos hc]
        exact fun _ ha => ha
      · rw [if_neg hc]
        exact fun a ha => ih (expand s xs) (subset_expand s xs ha)

lemma depsOf_subset_allDeps (s : Store) (a : String) : depsOf s a ⊆ allDeps s := by
  unfold depsOf
  cases hg : getTask s a with
  | none => simp
  | some t =>
      intro b hb
      exact List.mem_flatten.mpr
        ⟨t.dependencies.getD [], List.mem_map_of_mem _ (getTask_some_mem hg).1, hb⟩

lemma expand_subset {s : Store} {u xs : List String} (hxs : xs ⊆ u)
    (hall : allDeps s ⊆ u) : expand s xs ⊆ u := by
  intro b hb
  rcases List.mem_append.mp hb with hb | hb
  · exact hxs hb
  · obtain ⟨l, hl, hbl⟩ := List.mem_flatten.mp hb
    obtain ⟨a, _, rfl⟩ := List.mem_map.mp hl
    exact hall (depsOf_subset_allDeps s a hbl)

/-- Saturating for as many rounds as the universe has elements yields a
dependency-closed frontier. -/
lemma sat_closed {s : Store} {u : List String} (hall : allDeps s ⊆ u) :
    ∀ n (xs : List String), xs ⊆ u → u.toFinset.card ≤ xs.toFinset.card + n →
      Closed s (sat s n xs) := by
  intro n
  induction n with
  | zero =>
      intro xs hxs hcard
      have hsub : xs.toFinset ⊆ u.toFinset := by
        intro a ha
        rw [List.mem_toFinset] at ha ⊢
        exact hxs ha
      have heq : xs.toFinset = u.toFinset :=
        Finset.eq_of_subset_of_card_le hsub (by simpa using hcard)
      intro a _ b hb
      have hbu : b ∈ u.toFinset := List.mem_toFinset.mpr (hall (depsOf_subset_allDeps s a hb))
      rw [← heq, List.mem_toFinset] at hbu
      exact hbu
  | succ n ih =>
      intro xs hxs hcard
      simp only [sat]
      by_cases hc : ((expand s xs).all fun a => decide (a ∈ xs)) = true
      · rw [if_pos hc]
        rw [List.all_eq_true] at hc
        intro a ha b hb
        simpa using hc b (deps_mem_expand ha hb)
      · rw [if_neg hc]
        have hex : ∃ a ∈ expand s xs, a ∉ xs := by
          by_contra hno
          push_neg at hno
          exact hc (List.all_eq_true.mpr fun a ha => by simpa using hno a ha)
        obtain ⟨a, hae, hax⟩ := hex
        have hsub : xs.toFinset ⊆ (expand s xs).toFinset := by
          intro b hb
          rw [List.mem_toFinset] at hb ⊢
          exact subset_expand s xs hb
        have hlt : xs.toFinset.card < (expand s xs).toFinset.card :=
          Finset.card_lt_card ((Finset.ssubset_iff_of_subset hsub).mpr
            ⟨a, List.mem_toFinset.mpr hae, fun hmem => hax (List.mem_toFinset.mp hmem)⟩)
        exact ih (expand s xs) (expand_subset hxs hall) (by omega)

/-- A closed frontier absorbs everything reachable from its members. -/
lemma mem_of_reflTransGen {s : Store} {X : List String} (hcl : Closed s X)
    {c a : String} (hc : c ∈ X) (h : Relation.ReflTransGen (DepEdge s) c a) : a ∈ X := by
  revert hc
  induction h using Relation.ReflTransGen.head_induction_on with
  | refl => exact fun hx => hx
  | head h' hrest ih => exact fun hx => ih (hcl _ hx _ h')

/-- Completeness of the modelled cycle check: any id reachable from the
proposed dependency list is reported. -/
lemma hasCycle_of_reach {s : Store} {c : String} {ds : List String}
    (h : ∃ d ∈ ds, Relation.ReflTransGen (DepEdge s) d c) :
    hasCycle c ds s = true := by
  obtain ⟨d, hd, hrtg⟩ := h
  unfold hasCycle
  rw [decide_eq_true_iff]
  have hall : allDeps s ⊆ ds ++ allDeps s := fun a ha => List.mem_append_right _ ha
  have hds : ds ⊆ ds ++ allDeps s := fun a ha => List.mem_append_left _ ha
  have hcl : Closed s (sat s (ds ++ allDeps s).length ds) := by
    refine sat_closed hall _ ds hds ?_
    calc (ds ++ allDeps s).toFinset.card
        ≤ (ds ++ allDeps s).length := List.toFinset_card_le _
      _ ≤ ds.toFinset.card + (ds ++ allDeps s).length := Nat.le_add_left _ _
  exact mem_of_reflTransGen hcl (subset_sat s _ ds hd) hrtg

lemma getTask_replace_other {s : Store} {tid x : String} {t' : Task}
    (ht' : t'.id = tid) (hx : x ≠ tid) :
    getTask (replaceTask s tid t') x = getTask s x := by
  induction s with
  | nil => rfl
  | cons u us ih =>
      simp only [replaceTask, updateFirst]
      by_cases hu : u.id = tid
      · rw [if_pos (by simpa using hu)]
        rw [getTask, List.find?_cons_of_neg _
          (by rw [ht']; simpa using Ne.symm hx)]
        rw [getTask, List.find?_cons_of_neg _
          (by simpa using fun e => hx (e.symm.trans hu))]
      · rw [if_neg (by simpa using hu)]
        by_cases hux : u.id = x
        · rw [getTask, List.find?_cons_of_pos _ (by simpa using hux),
            getTask, List.find?_cons_of_pos _ (by simpa using hux)]
        · rw [getTask, List.find?_cons_of_neg _ (by simpa using hux),
            getTask, List.find?_cons_of_neg _ (by simpa using hux)]
          exact ih

lemma getTask_replace_self {s : Store} {tid : String} {t t' : Task}
    (h : getTask s tid = some t) (ht' : t'.id = tid) :
    getTask (replaceTask s tid t') tid = some t' :=
  getTask_updateFirst_eq h (ht'.trans (getTask_some_mem h).2.symm)

lemma depsOf_replace_other {s : Store} {tid x : String} {t' : Task}
    (ht' : t'.id = tid) (hx : x ≠ tid) :
    depsOf (replaceTask s tid t') x = depsOf s x := by
  unfold depsOf
  rw [getTask_replace_other ht' hx]

/-- A dependency path in the hypothetically-updated snapshot transfers to
the current snapshot: nodes other than the updated one carry unchanged
edges, and the path can be cut at its first arrival at the updated node. -/
lemma rtg_replace {s : Store} {tid : String} {t' : Task} (ht' : t'.id = tid)
    {y : String} (h : Relation.ReflTransGen (DepEdge (replaceTask s tid t')) y tid) :
    Relation.ReflTransGen (DepEdge s) y tid := by
  induction h using Relation.ReflTransGen.head_induction_on with
  | refl => exact Relation.ReflTransGen.refl
  | @head a c h' hrest ih =>
      by_cases ha : a = tid
      · exact ha ▸ Relation.ReflTransGen.refl
      · have hedge : DepEdge s a c := by
          unfold DepEdge at h' ⊢
          rwa [depsOf_replace_other ht' ha] at h'
        exact Relation.ReflTransGen.head hedge ih

/-- C2 counterexample: on a store whose only task `A` is `in_progress`, the
self-cycle update `update_task("A", deps=["A"])` fails with `InvalidState`,
not `CycleDetected` — the claim does not hold for every existing task. -/
theorem update_task_not_pending_invalid_state :
    update_task true [busyA] "A" none (some ["A"]) = .error .InvalidState := by
  rfl

/-- C2 (amended): for every existing pending task whose proposed dependency
ids all exist in the store, calling `update_task` with a dependency set that
would make the task reachable from itself (any depth of indirection,
including `deps=[task]` itself) fails with `CycleDetected`; the error is
raised before any mutation, so the store is unchanged. -/
theorem update_task_cycle_detected (writeOk : Bool) (s : Store) (tid : String)
    (nd : Option String) (ds : List String) (t : Task)
    (hg : getTask s tid = some t) (hp : t.status = Status.pending)
    (hex : ∀ d ∈ ds, (getTask s d).isSome)
    (hcyc : Relation.TransGen
      (DepEdge (replaceTask s tid
        { t with
          description := nd.getD t.description
          dependencies := some ds })) tid tid) :
    update_task writeOk s tid nd (some ds) = .error .CycleDetected := by
  have ht'id : (Task.mk tid t.description t.status t.assignedTo t.result
      (some ds)).id = tid := rfl
  obtain ⟨c, hedge, hrtg⟩ := (Relation.TransGen.head'_iff).mp hcyc
  have htid : t.id = tid := (getTask_some_mem hg).2
  have ht' : ({ t with
      description := nd.getD t.description
      dependencies := some ds } : Task).id = tid := htid
  have hdg : getTask (replaceTask s tid
      { t with
        description := nd.getD t.description
        dependencies := some ds }) tid =
      some { t with
        description := nd.getD t.description
        dependencies := some ds } :=
    getTask_replace_self hg ht'
  have hcds : c ∈ ds := by
    unfold DepEdge depsOf at hedge
    rw [hdg] at hedge
    simpa using hedge
  have hrtg' : Relation.ReflTransGen (DepEdge s) c tid := rtg_replace ht' hrtg
  have hcy : hasCycle tid ds s = true := hasCycle_of_reach ⟨c, hcds, hrtg'⟩
  have hbne : (t.status != Status.pending) = false := by simp [hp]
  have hall : (ds.all fun d => (getTask s d).isSome) = true :=
    List.all_eq_true.mpr fun d hd => hex d hd
  simp [update_task, hg, hbne, hall, hcy]

/-- C2 witness: the spec's scenario — `A` pending, `update_task("A",
deps=["A"])` fails with `CycleDetected`. -/
theorem update_task_cycle_detected_witness :
    getTask [taskA] "A" = some taskA ∧ taskA.status = Status.pending ∧
    (∀ d ∈ ["A"], (getTask [taskA] d).isSome) ∧
    update_task true [taskA] "A" none (some ["A"]) = .error .CycleDetected := by
  refine ⟨rfl, rfl, by decide, ?_⟩
  refine update_task_cycle_detected true [taskA] "A" none ["A"] taskA rfl rfl (by decide) ?_
  exact Relation.TransGen.single (by unfold DepEdge; decide)

/-- C3 (spec-modelled): deleting a task that any other task's dependency
set references fails with `HasDependents` regardless of the referencing
task's status and removes nothing; deleting an unreferenced existing task
removes exactly that task. -/
theorem delete_task_rules (writeOk : Bool) (s : Store) (tid : String) :
    ((getTask s tid).isSome →
      (∃ u ∈ s, u.id ≠ tid ∧ tid ∈ u.dependencies.getD []) →
      delete_task writeOk s tid = .error .HasDependents) ∧
    (∀ t, getTask s tid = some t →
      (∀ u ∈ s, u.id = tid ∨ tid ∉ u.dependencies.getD []) →
      ∃ s2, delete_task writeOk s tid = .ok (tid, s2) ∧ s2.Sublist s ∧
        ∀ u, u ∈ s2 ↔ u ∈ s ∧ u.id ≠ tid) := by
  constructor
  · intro hsome href
    obtain ⟨u, hu, hne, hdep⟩ := href
    obtain ⟨t0, hg⟩ := Option.isSome_iff_exists.mp hsome
    simp only [delete_task, hg]
    rw [if_pos ?_]
    simp only [List.any_eq_true, Bool.and_eq_true]
    exact ⟨u, hu, by simpa using hne,
      List.contains_iff_exists_mem_beq.mpr ⟨tid, hdep, by simp⟩⟩
  · intro t hg hnone
    refine ⟨s.filter (fun u => u.id != tid), ?_, List.filter_sublist _, ?_⟩
    · simp only [delete_task, hg]
      rw [if_neg ?_, saveTasks_eq]
      simp only [List.any_eq_true, Bool.and_eq_true, not_exists]
      rintro u ⟨hu, hu1, hu2⟩
      rcases hnone u hu with he | hnd
      · exact absurd he (by simpa using hu1)
      · obtain ⟨b, hb, heq⟩ := List.contains_iff_exists_mem_beq.mp hu2
        exact hnd (by rwa [show tid = b by simpa using heq])
    · intro u
      rw [List.mem_filter]
      simp

/-- C3 witness: with `B` depending on `A`, deleting `A` fails with
`HasDependents`; deleting the unreferenced `B` removes exactly `B`. -/
theorem delete_task_rules_witness :
    delete_task true [taskA, taskB] "A" = .error .HasDependents ∧
    ∃ s2, delete_task true [taskA, taskB] "B" = .ok ("B", s2) ∧
      s2.Sublist [taskA, taskB] ∧ ∀ u, u ∈ s2 ↔ u ∈ [taskA, taskB] ∧ u.id ≠ "B" := by
  constructor
  · exact (delete_task_rules true [taskA, taskB] "A").1 rfl
      ⟨taskB, by simp, by decide, by decide⟩
  · exact (delete_task_rules true [taskA, taskB] "B").2 taskB rfl (by decide)

end Orchestrator
